import Mathlib

/-!
Verification development for the Wordlister repository (two Python source
files: `wordlister.py` and `wordlister_strong.py`).

Strings are modelled as `List Char`; Python `set`s of strings become
`Finset (List Char)` (built as `toFinset` of an explicit enumeration
list).  Case conversion is modelled at ASCII level by explicit character
tables, matching the behaviour of Python `str.lower` / `str.upper` /
`str.capitalize` / `str.title` on ASCII input.
-/

/-- Convenience: the character list of a string literal. -/
def sl (s : String) : List Char := s.data

/-- ASCII model of Python single-character lowercasing. -/
def lowerChar (c : Char) : Char :=
  match c with
  | 'A' => 'a' | 'B' => 'b' | 'C' => 'c' | 'D' => 'd' | 'E' => 'e' | 'F' => 'f'
  | 'G' => 'g' | 'H' => 'h' | 'I' => 'i' | 'J' => 'j' | 'K' => 'k' | 'L' => 'l'
  | 'M' => 'm' | 'N' => 'n' | 'O' => 'o' | 'P' => 'p' | 'Q' => 'q' | 'R' => 'r'
  | 'S' => 's' | 'T' => 't' | 'U' => 'u' | 'V' => 'v' | 'W' => 'w' | 'X' => 'x'
  | 'Y' => 'y' | 'Z' => 'z'
  | c => c

/-- ASCII model of Python single-character uppercasing. -/
def upperChar (c : Char) : Char :=
  match c with
  | 'a' => 'A' | 'b' => 'B' | 'c' => 'C' | 'd' => 'D' | 'e' => 'E' | 'f' => 'F'
  | 'g' => 'G' | 'h' => 'H' | 'i' => 'I' | 'j' => 'J' | 'k' => 'K' | 'l' => 'L'
  | 'm' => 'M' | 'n' => 'N' | 'o' => 'O' | 'p' => 'P' | 'q' => 'Q' | 'r' => 'R'
  | 's' => 'S' | 't' => 'T' | 'u' => 'U' | 'v' => 'V' | 'w' => 'W' | 'x' => 'X'
  | 'y' => 'Y' | 'z' => 'Z'
  | c => c

/-- The uppercase ASCII letters (the characters `lowerChar` acts on). -/
def upperAZ : List Char :=
  ['A','B','C','D','E','F','G','H','I','J','K','L','M','N','O','P','Q','R','S','T',
   'U','V','W','X','Y','Z']

theorem lowerChar_of_not_upper (c : Char) (h : c ∉ upperAZ) : lowerChar c = c := by
  unfold lowerChar
  split <;> simp_all [upperAZ]

theorem lowerChar_not_upper (c : Char) : lowerChar c ∉ upperAZ := by
  unfold lowerChar
  split <;> simp_all [upperAZ]

theorem lowerChar_idem (c : Char) : lowerChar (lowerChar c) = lowerChar c :=
  lowerChar_of_not_upper _ (lowerChar_not_upper c)

/-! ## Embedding of `wordlister_strong.py` -/

/-- `case_variants` (wordlister_strong.py line 16), as an enumeration list:
`{word.lower(), word.upper(), word.capitalize()}`. -/
def caseVariantsList (w : List Char) : List (List Char) :=
  [w.map lowerChar, w.map upperChar,
   match w with
   | [] => []
   | c :: cs => upperChar c :: cs.map lowerChar]

/-- The glyph pool of one character: the `leet` table of
`leet_variants` (wordlister_strong.py lines 22-49) looked up at the
lowercased character, defaulting to the character itself. -/
def leetPool (c : Char) : List Char :=
  match lowerChar c with
  | 'a' => ['a', 'A', '@', '4']
  | 'b' => ['b', 'B', '8']
  | 'c' => ['c', 'C', '(']
  | 'd' => ['d', 'D']
  | 'e' => ['e', 'E', '3']
  | 'f' => ['f', 'F']
  | 'g' => ['g', 'G', '6', '9']
  | 'h' => ['h', 'H', '#']
  | 'i' => ['i', 'I', '1', '!']
  | 'j' => ['j', 'J']
  | 'k' => ['k', 'K']
  | 'l' => ['l', 'L', '1', '|']
  | 'm' => ['m', 'M']
  | 'n' => ['n', 'N']
  | 'o' => ['o', 'O', '0']
  | 'p' => ['p', 'P']
  | 'q' => ['q', 'Q']
  | 'r' => ['r', 'R']
  | 's' => ['s', 'S', '$', '5']
  | 't' => ['t', 'T', '7', '+']
  | 'u' => ['u', 'U']
  | 'v' => ['v', 'V']
  | 'w' => ['w', 'W']
  | 'x' => ['x', 'X']
  | 'y' => ['y', 'Y']
  | 'z' => ['z', 'Z', '2']
  | _ => [c]

/-- Enumeration of `itertools.product(*pools)` joined back into words:
the body of `leet_variants` (wordlister_strong.py lines 50-51). -/
def leetVariantsList : List Char → List (List Char)
  | [] => [[]]
  | c :: cs => (leetPool c).flatMap (fun g => (leetVariantsList cs).map (fun v => g :: v))

/-- `leet_variants` returns a Python set; modelled as the `Finset` of the
enumeration list. -/
def leetVariants (w : List Char) : Finset (List Char) :=
  (leetVariantsList w).toFinset

/-- Enumeration (with possible duplicates) of the set built by
`mutate_final` (wordlister_strong.py lines 54-60): start from `{word}`,
replace by the union of `case_variants` if `use_case`, then by the union
of `leet_variants` if `use_leet`. -/
def mutateFinalList (w : List Char) (useCase useLeet : Bool) : List (List Char) :=
  let v1 := if useCase then caseVariantsList w else [w]
  if useLeet then v1.flatMap leetVariantsList else v1

/-- `mutate_final` as a set. -/
def mutateFinal (w : List Char) (useCase useLeet : Bool) : Finset (List Char) :=
  (mutateFinalList w useCase useLeet).toFinset

/-- The number test of `split_words` (wordlister_strong.py line 71):
`w.isdigit() and len(w) in (2, 4)`. -/
def isNumToken (w : List Char) : Bool :=
  w.all (fun c => c.isDigit) && (w.length == 2 || w.length == 4)

/-- `split_words` (wordlister_strong.py lines 67-75): partition the
token list into names and numbers, preserving order. -/
def splitWords (ws : List (List Char)) : List (List Char) × List (List Char) :=
  (ws.filter (fun w => !(isNumToken w)), ws.filter (fun w => isNumToken w))

/-- The `separators` list of `combine_words` (wordlister_strong.py line 79). -/
def strongSeparators : List (List Char) := [[], ['.'], ['_']]

/-- The `symbols` list of `combine_words` (wordlister_strong.py line 80). -/
def strongSymbols : List (List Char) := [[], ['@'], ['!']]

/-- The strings added by `combine_words` for one ordered pair of distinct
names (wordlister_strong.py lines 89-95): for each separator, the joined
base plus, for each number and symbol, `base+sym+num` and `num+base`. -/
def pairCore (a b : List Char) (numbers : List (List Char)) : List (List Char) :=
  strongSeparators.flatMap (fun sep =>
    (a ++ sep ++ b) ::
      numbers.flatMap (fun num =>
        strongSymbols.flatMap (fun sym =>
          [(a ++ sep ++ b) ++ sym ++ num, num ++ (a ++ sep ++ b)])))

/-- The name+name stage of `combine_words` (wordlister_strong.py lines
84-95); self-pairings contribute nothing. -/
def nameNameList (names numbers : List (List Char)) : List (List Char) :=
  names.flatMap (fun a =>
    names.flatMap (fun b =>
      if a = b then [] else pairCore a b numbers))

/-- The name+year stage of `combine_words` (wordlister_strong.py lines
97-102). -/
def nameNumList (names numbers : List (List Char)) : List (List Char) :=
  names.flatMap (fun name =>
    numbers.flatMap (fun num =>
      strongSymbols.flatMap (fun sym =>
        [name ++ sym ++ num, num ++ name])))

/-- Enumeration of the `results` set of `combine_words`. -/
def combineWordsList (names numbers : List (List Char)) : List (List Char) :=
  nameNameList names numbers ++ nameNumList names numbers

/-- `combine_words` (wordlister_strong.py lines 78-104) as a set. -/
def combineWords (names numbers : List (List Char)) : Finset (List Char) :=
  (combineWordsList names numbers).toFinset

/-- `max(len(n) for n in names)`, used by `estimate_total`; 0 on an empty
list (the code only reaches it with nonempty `names`). -/
def maxNameLen (names : List (List Char)) : Nat :=
  (names.map List.length).foldl Nat.max 0

/-- `estimate_total` (wordlister_strong.py lines 111-128). -/
def estimateTotal (ws : List (List Char)) (useCase useLeet : Bool) : Nat :=
  let total := (ws.map (fun w =>
    (1 * (if useCase then 3 else 1)) * (if useLeet then 3 ^ w.length else 1))).sum
  let names := (splitWords ws).1
  let combos0 := (combineWords names (splitWords ws).2).card
  let combos1 := if useCase then combos0 * 3 else combos0
  let combos2 := if useLeet && !names.isEmpty then combos1 * 3 ^ maxNameLen names
                 else combos1
  max (total + combos2) 1

/-- The `seen` filter of `generate_words_smart` (wordlister_strong.py
lines 136-155): emit each candidate not yet seen, in order, updating the
seen set. -/
def emitNew : List (List Char) → List (List Char) → List (List Char)
  | [], _ => []
  | x :: xs, seen =>
    if x ∈ seen then emitNew xs seen else x :: emitNew xs (x :: seen)

/-- The full ordered stream yielded by `generate_words_smart`
(wordlister_strong.py lines 135-155): single-word mutations for each base
word, then mutations of every `combine_words` combination, all run
through the shared `seen` set.  The Python sets being iterated are
enumerated through their canonical (deduplicated) lists. -/
def generateWordsSmart (ws : List (List Char)) (useCase useLeet : Bool) : List (List Char) :=
  emitNew
    (ws.flatMap (fun w => mutateFinalList w useCase useLeet) ++
      (combineWordsList (splitWords ws).1 (splitWords ws).2).dedup.flatMap
        (fun c => mutateFinalList c useCase useLeet))
    []

/-- The token parsing of `WordlistTUI.start_generation`
(wordlister_strong.py line 195): `base_input.replace(",", " ").split()`. -/
def isSpaceChar (c : Char) : Bool :=
  c = ' ' || c = '\t' || c = '\n' || c = '\r'

/-- Python `str.split()` with no argument: split on whitespace runs,
dropping empty pieces. -/
def pySplitWs (l : List Char) : List (List Char) :=
  (l.splitOnP isSpaceChar).filter (fun w => !w.isEmpty)

/-- The base-word list parsed by `WordlistTUI.start_generation`
(wordlister_strong.py lines 194-195). -/
def strongBaseWords (input : List Char) : List (List Char) :=
  pySplitWs (input.map (fun c => if c = ',' then ' ' else c))

/-! ## Embedding of `wordlister.py` -/

/-- `PasswordGenerator.LEET_MAP` (wordlister.py lines 23-32), in source
order. -/
def leetMapPairs : List (Char × List Char) :=
  [('a', ['a', '4', '@']),
   ('e', ['e', '3']),
   ('i', ['i', '1', '!']),
   ('o', ['o', '0']),
   ('s', ['s', '5', '$']),
   ('t', ['t', '7']),
   ('l', ['l', '1']),
   ('g', ['g', '9'])]

/-- `PasswordGenerator.SEPARATORS` (wordlister.py line 34). -/
def wlSeparators : List (List Char) := [[], ['-'], ['_'], ['.']]

/-- `PasswordGenerator.CAPS_PATTERNS` (wordlister.py line 35). -/
def capsPatterns : List (List Char) :=
  [sl "lower", sl "upper", sl "title", sl "first"]

/-- ASCII-cased test used by the title-case model: Python treats letters
as cased characters. -/
def isAsciiLetter (c : Char) : Bool :=
  ('a' ≤ c && c ≤ 'z') || ('A' ≤ c && c ≤ 'Z')

/-- ASCII model of Python `str.title`: a letter following a non-letter is
uppercased, a letter following a letter is lowercased, other characters
pass through.  The Boolean argument records whether the previous
character was a letter. -/
def pyTitleAux : Bool → List Char → List Char
  | _, [] => []
  | prevCased, c :: cs =>
    if isAsciiLetter c then
      (if prevCased then lowerChar c else upperChar c) :: pyTitleAux true cs
    else
      c :: pyTitleAux false cs

/-- Python `word.title()`. -/
def pyTitle (w : List Char) : List Char := pyTitleAux false w

/-- The `first` branch of `apply_caps`:
`word[0].upper() + word[1:].lower() if word else word`. -/
def pyFirst (w : List Char) : List Char :=
  match w with
  | [] => []
  | c :: cs => upperChar c :: cs.map lowerChar

/-- `PasswordGenerator.apply_caps` (wordlister.py lines 37-48). -/
def applyCaps (w : List Char) (p : List Char) : List Char :=
  if p = sl "lower" then w.map lowerChar
  else if p = sl "upper" then w.map upperChar
  else if p = sl "title" then pyTitle w
  else if p = sl "first" then pyFirst w
  else w

/-- Python `str.replace` for a single-character pattern and replacement:
replace every occurrence. -/
def charReplace (w : List Char) (o n : Char) : List Char :=
  w.map (fun c => if c = o then n else c)

/-- `PasswordGenerator.apply_leet` (wordlister.py lines 50-68).  For
nonzero intensity the `intensity >= 1` test of line 59 is always true.
`replacements[1:2]` is `drop 1` then `take 1`; `list(set(results))` is
modelled as the canonical deduplicated list. -/
def applyLeet (w : List Char) (intensity : Nat) : List (List Char) :=
  if intensity = 0 then [w]
  else
    (w :: leetMapPairs.flatMap (fun pr =>
      if pr.1 ∈ w.map lowerChar then
        ((pr.2.drop 1).take 1).filterMap (fun repl =>
          let nw := charReplace (charReplace w pr.1 repl) (upperChar pr.1) repl
          if nw ≠ w then some nw else none)
      else [])).dedup

/-- The caps-pattern list iterated by `generate_variations` (wordlister.py
line 77): all patterns if `use_caps` else `['lower']`. -/
def capsList (useCaps : Bool) : List (List Char) :=
  if useCaps then capsPatterns else [sl "lower"]

/-- The strings added by `generate_variations` for one leet word
(wordlister.py lines 83-93): the word itself; if `year` is nonempty also
`word+year` and `year+word`; if additionally `depth >= 2`, for each
separator in `SEPARATORS[:2]` that is nonempty, `word+sep+year` and
`year+sep+word`. -/
def stage1Item (lw year : List Char) (depth : Nat) : List (List Char) :=
  lw ::
    (if year ≠ [] then
      [lw ++ year, year ++ lw] ++
        (if 2 ≤ depth then
          (wlSeparators.take 2).flatMap (fun sep =>
            if sep ≠ [] then [lw ++ sep ++ year, year ++ sep ++ lw] else [])
        else [])
    else [])

/-- The per-word stage of `generate_variations` (wordlister.py lines
76-93). -/
def stage1List (words : List (List Char)) (year : List Char) (depth : Nat)
    (useLeet useCaps : Bool) : List (List Char) :=
  words.flatMap (fun word =>
    (capsList useCaps).flatMap (fun p =>
      (applyLeet (applyCaps word p) (if useLeet then min depth 1 else 0)).flatMap
        (fun lw => stage1Item lw year depth)))

/-- `caps_combos` (wordlister.py line 98). -/
def capsCombos (useCaps : Bool) : List ((List Char) × (List Char)) :=
  if useCaps then [(sl "lower", sl "title"), (sl "title", sl "lower")]
  else [(sl "lower", sl "lower")]

/-- The strings added by the combination stage for one ordered pair of
distinct words (wordlister.py lines 98-108). -/
def stage2Pair (w1 w2 year : List Char) (depth : Nat) (useCaps : Bool) :
    List (List Char) :=
  (capsCombos useCaps).flatMap (fun c12 =>
    (wlSeparators.take 2).flatMap (fun sep =>
      (applyCaps w1 c12.1 ++ sep ++ applyCaps w2 c12.2) ::
        (if year ≠ [] ∧ 3 ≤ depth then
          [(applyCaps w1 c12.1 ++ sep ++ applyCaps w2 c12.2) ++ year]
        else [])))

/-- The combination stage of `generate_variations` (wordlister.py lines
95-108): ordered pairs of distinct words among the first
`min(3, len(words))` words. -/
def stage2List (words : List (List Char)) (year : List Char) (depth : Nat)
    (useCaps : Bool) : List (List Char) :=
  if 2 ≤ depth ∧ 2 ≤ words.length then
    (words.take (min 3 words.length)).flatMap (fun w1 =>
      (words.take (min 3 words.length)).flatMap (fun w2 =>
        if w1 = w2 then [] else stage2Pair w1 w2 year depth useCaps))
  else []

/-- `common_suffixes` (wordlister.py line 112). -/
def commonSuffixes : List (List Char) := [sl "!", sl "123", sl "1"]

/-- The caps-pattern list of the suffix stage (wordlister.py line 114). -/
def sufCapsList (useCaps : Bool) : List (List Char) :=
  if useCaps then [sl "lower", sl "title"] else [sl "lower"]

/-- The suffix stage of `generate_variations` (wordlister.py lines
111-118). -/
def stage3List (words : List (List Char)) (depth : Nat) (useCaps : Bool) :
    List (List Char) :=
  if 2 ≤ depth then
    words.flatMap (fun word =>
      (sufCapsList useCaps).flatMap (fun p =>
        commonSuffixes.map (fun suf => applyCaps word p ++ suf)))
  else []

/-- Enumeration of everything `generate_variations` adds to its
`variations` set, stage by stage. -/
def generateVariationsList (words : List (List Char)) (year : List Char)
    (depth : Nat) (useLeet useCaps : Bool) : List (List Char) :=
  stage1List words year depth useLeet useCaps ++
    stage2List words year depth useCaps ++
    stage3List words depth useCaps

/-- `PasswordGenerator.generate_variations` (wordlister.py lines 70-120)
as the set it returns. -/
def generateVariations (words : List (List Char)) (year : List Char)
    (depth : Nat) (useLeet useCaps : Bool) : Finset (List Char) :=
  (generateVariationsList words year depth useLeet useCaps).toFinset

/-- The chunk partitioning of `GenerationEngine.generate` (wordlister.py
lines 173-180): one chunk when at most 3 tokens, otherwise the slices
`words[i:i+3]` for `i in range(0, len(words), 2)`, kept when nonempty. -/
def wordChunks {α : Type} (ws : List α) : List (List α) :=
  if ws.length ≤ 3 then [ws]
  else
    ((List.range ((ws.length + 1) / 2)).map
        (fun k => (ws.drop (2 * k)).take 3)).filter
      (fun c => decide (1 ≤ c.length))

/-- Python `str.strip()` with no argument, ASCII whitespace model. -/
def pyStrip (l : List Char) : List Char :=
  ((l.dropWhile isSpaceChar).reverse.dropWhile isSpaceChar).reverse

/-- The guard of `WordlisterApp.start_generation` (wordlister.py line
464): the run proceeds iff the raw input is non-blank after stripping. -/
def wlGuardPasses (input : List Char) : Bool :=
  !(pyStrip input).isEmpty

/-- The token list parsed by `WordlisterApp.start_generation`
(wordlister.py line 469):
`[w.strip() for w in words_input.split(",") if w.strip()]`. -/
def wordsFromInput (input : List Char) : List (List Char) :=
  ((input.splitOn ',').map pyStrip).filter (fun w => !w.isEmpty)

/-! ## Helper lemmas -/

theorem mem_emitNew (l : List (List Char)) :
    ∀ (seen : List (List Char)) (x : List Char),
      x ∈ emitNew l seen ↔ x ∈ l ∧ x ∉ seen := by
  induction l with
  | nil => intro seen x; simp [emitNew]
  | cons y ys ih =>
    intro seen x
    by_cases hy : y ∈ seen
    · rw [emitNew, if_pos hy, ih seen x]
      simp only [List.mem_cons]
      constructor
      · rintro ⟨hx, hns⟩
        exact ⟨Or.inr hx, hns⟩
      · rintro ⟨rfl | hx, hns⟩
        · exact absurd hy hns
        · exact ⟨hx, hns⟩
    · rw [emitNew, if_neg hy]
      rw [List.mem_cons, ih (y :: seen) x]
      simp only [List.mem_cons]
      constructor
      · rintro (rfl | ⟨hx, hns⟩)
        · exact ⟨Or.inl rfl, hy⟩
        · exact ⟨Or.inr hx, fun hc => hns (Or.inr hc)⟩
      · rintro ⟨hx | hx, hns⟩
        · exact Or.inl hx
        · by_cases hxy : x = y
          · exact Or.inl hxy
          · exact Or.inr ⟨hx, fun hc => hc.elim hxy hns⟩

theorem nodup_emitNew (l : List (List Char)) :
    ∀ seen : List (List Char), (emitNew l seen).Nodup := by
  induction l with
  | nil => intro seen; simp [emitNew]
  | cons y ys ih =>
    intro seen
    by_cases hy : y ∈ seen
    · rw [emitNew, if_pos hy]
      exact ih seen
    · rw [emitNew, if_neg hy]
      exact List.nodup_cons.mpr
        ⟨fun hc => ((mem_emitNew ys (y :: seen) y).mp hc).2 (List.mem_cons_self y seen),
         ih (y :: seen)⟩

theorem toFinset_emitNew (l : List (List Char)) :
    (emitNew l []).toFinset = l.toFinset := by
  ext x
  simp [List.mem_toFinset, mem_emitNew]

theorem listSumConst {α : Type} (l : List α) (k : ℕ) :
    (l.map (fun _ => k)).sum = l.length * k := by
  induction l with
  | nil => simp
  | cons a as ih => simp [ih, List.length_cons]; ring

theorem card_flatMap_le {α β : Type} [DecidableEq β] (l : List α) (f : α → List β)
    (k : ℕ) (h : ∀ a ∈ l, (f a).toFinset.card ≤ k) :
    (l.flatMap f).toFinset.card ≤ l.length * k := by
  induction l with
  | nil => simp
  | cons a as ih =>
    rw [List.flatMap_cons, List.toFinset_append, List.length_cons]
    calc ((f a).toFinset ∪ (as.flatMap f).toFinset).card
        ≤ (f a).toFinset.card + (as.flatMap f).toFinset.card :=
          Finset.card_union_le _ _
      _ ≤ k + as.length * k :=
          Nat.add_le_add (h a (List.mem_cons_self a as))
            (ih fun b hb => h b (List.mem_cons_of_mem a hb))
      _ = (as.length + 1) * k := by ring

theorem leetPool_nodup (c : Char) : (leetPool c).Nodup := by
  unfold leetPool
  split <;> first | decide | simp

theorem leetVariantsList_length (w : List Char) :
    (leetVariantsList w).length = (w.map (fun c => (leetPool c).length)).prod := by
  induction w with
  | nil => simp [leetVariantsList]
  | cons c cs ih =>
    rw [leetVariantsList, List.length_flatMap]
    simp only [Function.comp_def, List.length_map]
    rw [listSumConst, ih, List.map_cons, List.prod_cons]

theorem nodupFlatMapCons (pool : List Char) (rest : List (List Char))
    (hp : pool.Nodup) (hr : rest.Nodup) :
    (pool.flatMap (fun g => rest.map (fun v => g :: v))).Nodup := by
  induction pool with
  | nil => simp
  | cons g gs ih =>
    rw [List.flatMap_cons, List.nodup_append]
    have hp2 := List.nodup_cons.mp hp
    refine ⟨hr.map (fun a b hab => by injection hab), ih hp2.2, ?_⟩
    intro x hx1 hx2
    rcases List.mem_map.mp hx1 with ⟨v, _, rfl⟩
    rcases List.mem_flatMap.mp hx2 with ⟨g2, hg2, hx2m⟩
    rcases List.mem_map.mp hx2m with ⟨v2, _, heq⟩
    injection heq with h1 _
    exact hp2.1 (h1 ▸ hg2)

theorem leetVariantsList_nodup (w : List Char) : (leetVariantsList w).Nodup := by
  induction w with
  | nil => simp [leetVariantsList]
  | cons c cs ih =>
    rw [leetVariantsList]
    exact nodupFlatMapCons (leetPool c) _ (leetPool_nodup c) ih

/-! ## Claim theorems -/

/-- C4: in full substitution mode (`leet_variants` of wordlister_strong.py),
the set of variants of any word has cardinality exactly the product, over
character positions, of that position's glyph-pool size. -/
theorem c4_full_mode_cardinality (w : List Char) :
    (leetVariants w).card = (w.map (fun c => (leetPool c).length)).prod := by
  rw [leetVariants, List.toFinset_card_of_nodup (leetVariantsList_nodup w),
    leetVariantsList_length]

/-- C5: the candidate stream of `generate_words_smart` never yields the
same string twice within one run, for every token list and every option
setting. -/
theorem c5_no_duplicate_emission (ws : List (List Char)) (useCase useLeet : Bool) :
    (generateWordsSmart ws useCase useLeet).Nodup := by
  unfold generateWordsSmart
  exact nodup_emitNew _ _

/-- C10: with both the case and the leet option disabled, `mutate_final`
is the identity: it returns exactly the singleton of its input. -/
theorem c10_mutate_identity (w : List Char) :
    mutateFinal w false false = {w} := by
  simp [mutateFinal, mutateFinalList]

/-- C2: evidence of the guard gap in `WordlisterApp.start_generation`
(wordlister.py line 464).  For the input `", ,"` the guard passes (the raw
input is non-blank), yet the parsed token list is empty, and generation
over an empty token list produces no candidates at all — the run starts
and silently completes with nothing.  `WordlistTUI.start_generation`
(wordlister_strong.py line 197) parses first and correctly rejects the
same input. -/
theorem c2_guard_gap :
    wlGuardPasses (sl ", ,") = true ∧
    wordsFromInput (sl ", ,") = [] ∧
    generateVariationsList [] [] 2 true true = [] ∧
    strongBaseWords (sl ", ,") = [] := by
  refine ⟨by decide, by decide, by decide, by decide⟩

/-- C9: neither combiner variant ever pairs a token with itself: every
string emitted by the name+name stage of `combine_words`
(wordlister_strong.py) and every string emitted by the combination stage
of `generate_variations` (wordlister.py) decomposes as a pairing of two
tokens that are distinct as strings. -/
theorem c9_no_self_pairing :
    (∀ (names numbers : List (List Char)) (s : List Char),
        s ∈ nameNameList names numbers →
        ∃ a b, a ∈ names ∧ b ∈ names ∧ a ≠ b ∧ s ∈ pairCore a b numbers) ∧
    (∀ (words : List (List Char)) (year : List Char) (depth : Nat)
        (useCaps : Bool) (s : List Char),
        s ∈ stage2List words year depth useCaps →
        ∃ w1 w2, w1 ∈ words.take (min 3 words.length) ∧
          w2 ∈ words.take (min 3 words.length) ∧ w1 ≠ w2 ∧
          s ∈ stage2Pair w1 w2 year depth useCaps) := by
  constructor
  · intro names numbers s hs
    simp only [nameNameList] at hs
    rcases List.mem_flatMap.mp hs with ⟨a, ha, hs2⟩
    rcases List.mem_flatMap.mp hs2 with ⟨b, hb, hs3⟩
    by_cases hab : a = b
    · rw [if_pos hab] at hs3
      cases hs3
    · exact ⟨a, b, ha, hb, hab, by rwa [if_neg hab] at hs3⟩
  · intro words year depth uc s hs
    simp only [stage2List] at hs
    by_cases hcond : 2 ≤ depth ∧ 2 ≤ words.length
    · rw [if_pos hcond] at hs
      rcases List.mem_flatMap.mp hs with ⟨w1, h1, hs2⟩
      rcases List.mem_flatMap.mp hs2 with ⟨w2, h2, hs3⟩
      by_cases h12 : w1 = w2
      · rw [if_pos h12] at hs3
        cases hs3
      · exact ⟨w1, w2, h1, h2, h12, by rwa [if_neg h12] at hs3⟩
    · rw [if_neg hcond] at hs
      cases hs

/-- C9 witness: concrete distinct-pair decompositions for one emitted
string of each combiner variant. -/
theorem c9_no_self_pairing_witness :
    (∃ a b, a ∈ [sl "x", sl "y"] ∧ b ∈ [sl "x", sl "y"] ∧ a ≠ b ∧
      sl "xy" ∈ pairCore a b []) ∧
    (∃ w1 w2,
      w1 ∈ ([sl "x", sl "y"] : List (List Char)).take
        (min 3 ([sl "x", sl "y"] : List (List Char)).length) ∧
      w2 ∈ ([sl "x", sl "y"] : List (List Char)).take
        (min 3 ([sl "x", sl "y"] : List (List Char)).length) ∧
      w1 ≠ w2 ∧ sl "xY" ∈ stage2Pair w1 w2 [] 2 true) :=
  ⟨c9_no_self_pairing.1 [sl "x", sl "y"] [] (sl "xy") (by decide),
   c9_no_self_pairing.2 [sl "x", sl "y"] [] 2 true (sl "xY") (by decide)⟩

/-- C3 counterexample: for tokens `["admin", "2024"]`, empty year,
depth 2, case and leet enabled, the output of `generate_variations`
(wordlister.py) does NOT contain `admin@2024` — its combiner only joins
with the separators `""` and `"-"`, never `"@"`. -/
theorem c3_counterexample :
    sl "admin@2024" ∉ generateVariations [sl "admin", sl "2024"] [] 2 true true := by
  decide

/-- C3 amended: for the same run the output does contain `admin`,
`ADMIN`, `Admin`, the single-class substituted forms `4dmin` and `adm1n`,
and the combination forms `admin2024` and `2024admin`. -/
theorem c3_amended_end_to_end :
    sl "admin" ∈ generateVariations [sl "admin", sl "2024"] [] 2 true true ∧
    sl "ADMIN" ∈ generateVariations [sl "admin", sl "2024"] [] 2 true true ∧
    sl "Admin" ∈ generateVariations [sl "admin", sl "2024"] [] 2 true true ∧
    sl "4dmin" ∈ generateVariations [sl "admin", sl "2024"] [] 2 true true ∧
    sl "adm1n" ∈ generateVariations [sl "admin", sl "2024"] [] 2 true true ∧
    sl "admin2024" ∈ generateVariations [sl "admin", sl "2024"] [] 2 true true ∧
    sl "2024admin" ∈ generateVariations [sl "admin", sl "2024"] [] 2 true true := by
  decide

/-- C8: for any non-empty token, the set obtained by applying all case
patterns (both `apply_caps` over `CAPS_PATTERNS` in wordlister.py and
`case_variants` in wordlister_strong.py) contains the full-lowercase and
the full-uppercase form, and the identity-lowercase pattern is
idempotent. -/
theorem c8_case_patterns (w : List Char) (h : w ≠ []) :
    (w.map lowerChar ∈ capsPatterns.map (applyCaps w) ∧
     w.map upperChar ∈ capsPatterns.map (applyCaps w)) ∧
    (w.map lowerChar ∈ caseVariantsList w ∧
     w.map upperChar ∈ caseVariantsList w) ∧
    applyCaps (applyCaps w (sl "lower")) (sl "lower") = applyCaps w (sl "lower") := by
  have hlow : ∀ v : List Char, applyCaps v (sl "lower") = v.map lowerChar := by
    intro v
    simp [applyCaps]
  have hup : applyCaps w (sl "upper") = w.map upperChar := by
    rw [applyCaps, if_neg (by decide), if_pos rfl]
  refine ⟨⟨?_, ?_⟩, ⟨?_, ?_⟩, ?_⟩
  · exact List.mem_map.mpr ⟨sl "lower", by simp [capsPatterns], hlow w⟩
  · exact List.mem_map.mpr ⟨sl "upper", by simp [capsPatterns], hup⟩
  · simp [caseVariantsList]
  · simp [caseVariantsList]
  · rw [hlow w, hlow (w.map lowerChar), List.map_map]
    simp [Function.comp_def, lowerChar_idem]

/-- C8 witness: the case-pattern facts at the concrete token `ab`. -/
theorem c8_case_patterns_witness :
    ((sl "ab").map lowerChar ∈ capsPatterns.map (applyCaps (sl "ab")) ∧
     (sl "ab").map upperChar ∈ capsPatterns.map (applyCaps (sl "ab"))) ∧
    ((sl "ab").map lowerChar ∈ caseVariantsList (sl "ab") ∧
     (sl "ab").map upperChar ∈ caseVariantsList (sl "ab")) ∧
    applyCaps (applyCaps (sl "ab") (sl "lower")) (sl "lower") =
      applyCaps (sl "ab") (sl "lower") :=
  c8_case_patterns (sl "ab") (by decide)

/-- C7: the chunk partitioning of `GenerationEngine.generate`: every
chunk has at most 3 tokens; a token list of at most 3 tokens gives the
single chunk holding all tokens; otherwise chunk `k` is the window of up
to 3 tokens starting at offset `2k`; and every token of the input list
appears in at least one chunk. -/
theorem c7_chunking {α : Type} (ws : List α) :
    (∀ c ∈ wordChunks ws, c.length ≤ 3) ∧
    (ws.length ≤ 3 → wordChunks ws = [ws]) ∧
    (3 < ws.length → ∀ k, (wordChunks ws).get? k =
      if k < (ws.length + 1) / 2 then some ((ws.drop (2 * k)).take 3) else none) ∧
    (∀ x ∈ ws, ∃ c ∈ wordChunks ws, x ∈ c) := by
  have hfilter : 3 < ws.length →
      ((List.range ((ws.length + 1) / 2)).map
        (fun k => (ws.drop (2 * k)).take 3)).filter (fun c => decide (1 ≤ c.length)) =
      (List.range ((ws.length + 1) / 2)).map (fun k => (ws.drop (2 * k)).take 3) := by
    intro h3
    rw [List.filter_eq_self]
    intro a ha
    rcases List.mem_map.mp ha with ⟨k, hk, rfl⟩
    rw [List.mem_range] at hk
    simp only [decide_eq_true_eq, List.length_take, List.length_drop]
    omega
  refine ⟨?_, ?_, ?_, ?_⟩
  · intro c hc
    rw [wordChunks] at hc
    by_cases h3 : ws.length ≤ 3
    · rw [if_pos h3] at hc
      rw [List.mem_singleton] at hc
      subst hc
      exact h3
    · rw [if_neg h3] at hc
      rcases List.mem_filter.mp hc with ⟨hcm, _⟩
      rcases List.mem_map.mp hcm with ⟨k, _, rfl⟩
      simp only [List.length_take, List.length_drop]
      omega
  · intro h3
    rw [wordChunks, if_pos h3]
  · intro h3 k
    rw [wordChunks, if_neg (by omega), hfilter h3, List.get?_eq_getElem?,
      List.getElem?_map]
    by_cases hk : k < (ws.length + 1) / 2
    · rw [if_pos hk, List.getElem?_range hk]
      rfl
    · rw [if_neg hk, List.getElem?_eq_none]
      · rfl
      · rw [List.length_range]
        omega
  · intro x hx
    by_cases h3 : ws.length ≤ 3
    · refine ⟨ws, ?_, hx⟩
      rw [wordChunks, if_pos h3]
      exact List.mem_singleton.mpr rfl
    · rcases List.mem_iff_getElem.mp hx with ⟨j, hj, rfl⟩
      refine ⟨(ws.drop (2 * (j / 2))).take 3, ?_, ?_⟩
      · rw [wordChunks, if_neg h3, hfilter (by omega)]
        exact List.mem_map.mpr ⟨j / 2, List.mem_range.mpr (by omega), rfl⟩
      · have hlen : j - 2 * (j / 2) < ((ws.drop (2 * (j / 2))).take 3).length := by
          simp only [List.length_take, List.length_drop]
          omega
        have hgl : ((ws.drop (2 * (j / 2))).take 3)[j - 2 * (j / 2)] = ws[j] := by
          rw [List.getElem_take, List.getElem_drop]
          congr 1
          omega
        have hmem := List.getElem_mem hlen
        rwa [hgl] at hmem

/-- C7 witness: the partitioning facts at concrete token lists of length
1 and 4. -/
theorem c7_chunking_witness :
    wordChunks [(1 : Nat)] = [[1]] ∧
    (wordChunks [(1 : Nat), 2, 3, 4]).get? 1 =
      some (([(1 : Nat), 2, 3, 4].drop 2).take 3) ∧
    (∃ c ∈ wordChunks [(1 : Nat), 2, 3, 4], 4 ∈ c) := by
  refine ⟨(c7_chunking [(1 : Nat)]).2.1 (by decide), ?_,
    (c7_chunking [(1 : Nat), 2, 3, 4]).2.2.2 4 (by decide)⟩
  rw [(c7_chunking [(1 : Nat), 2, 3, 4]).2.2.1 (by decide) 1]
  rfl

theorem mem_gv_of_stage1 {x : List Char} {words : List (List Char)}
    {year : List Char} {depth : Nat} {ul uc : Bool}
    (h : x ∈ stage1List words year depth ul uc) :
    x ∈ generateVariations words year depth ul uc := by
  rw [generateVariations, List.mem_toFinset, generateVariationsList]
  exact List.mem_append_left _ (List.mem_append_left _ h)

theorem mem_gv_of_stage3 {x : List Char} {words : List (List Char)}
    {year : List Char} {depth : Nat} {ul uc : Bool}
    (h : x ∈ stage3List words depth uc) :
    x ∈ generateVariations words year depth ul uc := by
  rw [generateVariations, List.mem_toFinset, generateVariationsList]
  exact List.mem_append_right _ h

theorem mem_stage1 {words : List (List Char)} {year : List Char} {depth : Nat}
    {ul uc : Bool} {w p b x : List Char} (hw : w ∈ words) (hp : p ∈ capsList uc)
    (hb : b ∈ applyLeet (applyCaps w p) (if ul then min depth 1 else 0))
    (hx : x ∈ stage1Item b year depth) :
    x ∈ stage1List words year depth ul uc := by
  unfold stage1List
  exact List.mem_flatMap.mpr
    ⟨w, hw, List.mem_flatMap.mpr ⟨p, hp, List.mem_flatMap.mpr ⟨b, hb, hx⟩⟩⟩

theorem mem_stage3 {words : List (List Char)} {depth : Nat} {uc : Bool}
    {w p suf : List Char} (hd : 2 ≤ depth) (hw : w ∈ words)
    (hp : p ∈ sufCapsList uc) (hs : suf ∈ commonSuffixes) :
    applyCaps w p ++ suf ∈ stage3List words depth uc := by
  unfold stage3List
  rw [if_pos hd]
  exact List.mem_flatMap.mpr
    ⟨w, hw, List.mem_flatMap.mpr ⟨p, hp, List.mem_map.mpr ⟨suf, hs, rfl⟩⟩⟩

/-- C6 counterexample: for the single token `ab`, year `9`, depth 2, case
and leet enabled, `4b` is one of the mutated base strings (a substitution
variant of the lowercase form), yet neither the suffix form `4b!` nor the
underscore-separated year form `ab_9` is generated: the suffix stage only
uses the un-substituted lower/title case forms, and the only nonempty
year separator is `-`. -/
theorem c6_counterexample :
    sl "4b" ∈ applyLeet (applyCaps (sl "ab") (sl "lower")) (min 2 1) ∧
    sl "4b!" ∉ generateVariations [sl "ab"] (sl "9") 2 true true ∧
    sl "ab_9" ∉ generateVariations [sl "ab"] (sl "9") 2 true true := by
  decide

/-- C6 amended: when `year` is non-empty, for every mutated base string
`b` (every case pattern combined with every substitution variant) the
generated set contains `b+year` and `year+b`, and when `depth ≥ 2` also
`b+"-"+year` and `year+"-"+b` (the separator `-` only, the empty
separator being skipped); and when `depth ≥ 2` it contains `base+suffix`
for each suffix in `{"!", "123", "1"}` where `base` ranges over the
lower and title case forms of each raw token (lower only when the case
option is off), without substitution variants. -/
theorem c6_amended_year_combinations (words : List (List Char)) (year : List Char)
    (depth : Nat) (useLeet useCaps : Bool) (hy : year ≠ []) :
    (∀ w ∈ words, ∀ p ∈ capsList useCaps,
      ∀ b ∈ applyLeet (applyCaps w p) (if useLeet then min depth 1 else 0),
        b ++ year ∈ generateVariations words year depth useLeet useCaps ∧
        year ++ b ∈ generateVariations words year depth useLeet useCaps ∧
        (2 ≤ depth →
          b ++ ['-'] ++ year ∈ generateVariations words year depth useLeet useCaps ∧
          year ++ ['-'] ++ b ∈ generateVariations words year depth useLeet useCaps)) ∧
    (2 ≤ depth → ∀ w ∈ words, ∀ p ∈ sufCapsList useCaps, ∀ suf ∈ commonSuffixes,
      applyCaps w p ++ suf ∈ generateVariations words year depth useLeet useCaps) := by
  constructor
  · intro w hw p hp b hb
    refine ⟨?_, ?_, fun hd => ⟨?_, ?_⟩⟩ <;>
      refine mem_gv_of_stage1 (mem_stage1 hw hp hb ?_) <;>
      simp [stage1Item, hy, wlSeparators, *]
  · intro hd w hw p hp suf hs
    exact mem_gv_of_stage3 (mem_stage3 hd hw hp hs)

/-- C6 witness: the year-combination and suffix facts at the concrete run
of the counterexample (token `ab`, year `9`, depth 2, both options on),
with mutated base `4b` and suffix `!`. -/
theorem c6_amended_year_combinations_witness :
    (sl "4b" ++ sl "9" ∈ generateVariations [sl "ab"] (sl "9") 2 true true ∧
     sl "9" ++ sl "4b" ∈ generateVariations [sl "ab"] (sl "9") 2 true true ∧
     (2 ≤ 2 →
       sl "4b" ++ ['-'] ++ sl "9" ∈ generateVariations [sl "ab"] (sl "9") 2 true true ∧
       sl "9" ++ ['-'] ++ sl "4b" ∈ generateVariations [sl "ab"] (sl "9") 2 true true)) ∧
    applyCaps (sl "ab") (sl "lower") ++ sl "!" ∈
      generateVariations [sl "ab"] (sl "9") 2 true true :=
  ⟨(c6_amended_year_combinations [sl "ab"] (sl "9") 2 true true (by decide)).1
      (sl "ab") (by decide) (sl "lower") (by decide) (sl "4b") (by decide),
   (c6_amended_year_combinations [sl "ab"] (sl "9") 2 true true (by decide)).2
      (by decide) (sl "ab") (by decide) (sl "lower") (by decide) (sl "!") (by decide)⟩

theorem mutateFinalList_length_leet_off (w : List Char) (uc : Bool) :
    (mutateFinalList w uc false).length = if uc then 3 else 1 := by
  cases uc <;> simp [mutateFinalList, caseVariantsList]

theorem estimateTotal_leet_off (ws : List (List Char)) (uc : Bool) :
    estimateTotal ws uc false =
      max (ws.length * (if uc then 3 else 1) +
        (combineWordsList (splitWords ws).1 (splitWords ws).2).dedup.length *
          (if uc then 3 else 1)) 1 := by
  simp only [estimateTotal, combineWords, List.card_toFinset]
  cases uc <;> simp [listSumConst]

/-- C1 counterexample: for the single token `a` with the case option off
and the leet option on, `estimate_total` returns 3 (it scales by
`3^len`), but the generation run emits the 4 distinct candidates
`a`, `A`, `@`, `4` (the glyph pool of `a` has 4 entries), so the
estimate is not an upper bound on the distinct candidates produced. -/
theorem c1_counterexample :
    ¬ ((generateWordsSmart [sl "a"] false true).toFinset.card ≤
        estimateTotal [sl "a"] false true) := by
  decide

/-- C1 amended: with the leet option off, `estimate_total` is an upper
bound on the number of distinct candidates the generation run emits, for
every non-empty token list and either case setting (with leet enabled the
estimate can undercount, since glyph pools have up to 4 entries while the
estimator scales by 3 per character). -/
theorem c1_amended_upper_bound (ws : List (List Char)) (useCase : Bool)
    (h : ws ≠ []) :
    (generateWordsSmart ws useCase false).toFinset.card ≤
      estimateTotal ws useCase false := by
  have hmut : ∀ w : List Char,
      (mutateFinalList w useCase false).toFinset.card ≤ if useCase then 3 else 1 :=
    fun w => mutateFinalList_length_leet_off w useCase ▸ List.toFinset_card_le _
  unfold generateWordsSmart
  rw [toFinset_emitNew, List.toFinset_append, estimateTotal_leet_off]
  refine le_trans (Finset.card_union_le _ _) (le_trans ?_ (le_max_left _ _))
  exact Nat.add_le_add
    (card_flatMap_le _ _ _ (fun a _ => hmut a))
    (card_flatMap_le _ _ _ (fun a _ => hmut a))

/-- C1 witness: the amended upper bound at the concrete token list
`["a"]` with the case option on. -/
theorem c1_amended_upper_bound_witness :
    (([sl "a"] : List (List Char)) ≠ []) ∧
    (generateWordsSmart [sl "a"] true false).toFinset.card ≤
      estimateTotal [sl "a"] true false :=
  ⟨by decide, c1_amended_upper_bound [sl "a"] true (by decide)⟩
